import Mathlib

/-!
Verification of the memory-aware job admission and accounting core of a
patched GNU Make (profile store, shared accounting region, descendant
walker, command-line classifier, admission gate).

The definitions below are shallow embeddings of the C sources:
  * src/src/main.c : profile store (`record_file_memory_usage_by_index`),
    shared accounting region (`reserve_memory_mb`, `get_imminent_memory_mb`),
    descendant walker update and release steps (`find_child_descendants`);
  * src/unnamed/part_003 : command-line classifier
    (`extract_filename_common`, the version at lines 254-360).

Machine integers (`unsigned long`) are modelled as `Nat` with explicit
reduction modulo `2 ^ 64` at the operations where C wrap-around can occur.
`time_t` values are modelled as `Int`.  Pointers that may be `NULL`
(`memory_profiles`, `filename`) are modelled as `Option`.
-/

namespace MemMake

/-! ## Profile store (src/src/main.c lines 286-288, 885, 940-976)

`struct file_memory_profile` has fields `filename` (a possibly-NULL
`char *`), `peak_memory_mb` (`unsigned long`) and `last_used` (`time_t`).
The store is the triple of the global variables `memory_profiles`
(a possibly-NULL growable array), `memory_profile_count` and
`memory_profiles_dirty`. -/

structure FileMemoryProfile where
  filename : Option String
  peak_memory_mb : Nat
  last_used : Int
  deriving Repr, DecidableEq, Inhabited

structure ProfileStore where
  memory_profiles : Option (List FileMemoryProfile)
  memory_profile_count : Nat
  memory_profiles_dirty : Bool
  deriving Repr, DecidableEq

/-- Embedding of `record_file_memory_usage_by_index` (main.c lines 940-976).
The C function takes the store through global variables; here it is passed
and returned explicitly.  `now` stands for the value of `time(NULL)`. -/
def record_file_memory_usage_by_index (st : ProfileStore) (profile_idx : Int)
    (memory_mb : Nat) (final : Bool) (now : Int) : ProfileStore :=
  if profile_idx < 0 ∨ profile_idx.toNat ≥ st.memory_profile_count then st
  else
    match st.memory_profiles with
    | none => st
    | some profs =>
      let i := profile_idx.toNat
      let entry := profs.getD i default
      let prev_peak_mb := entry.peak_memory_mb
      if memory_mb ≤ prev_peak_mb ∧ final = false then st
      else
        let new_mb := if final = true ∧ memory_mb < prev_peak_mb
          then prev_peak_mb - (prev_peak_mb - memory_mb) / 3
          else memory_mb
        { st with
          memory_profiles :=
            some (profs.set i { entry with peak_memory_mb := new_mb, last_used := now })
          memory_profiles_dirty := true }

/-- The stored peak of profile `i` (0 if the array is NULL). -/
def peakAt (st : ProfileStore) (i : Nat) : Nat :=
  match st.memory_profiles with
  | none => 0
  | some profs => (profs.getD i default).peak_memory_mb

/-- The stored last-used time of profile `i` (0 if the array is NULL). -/
def lastUsedAt (st : ProfileStore) (i : Nat) : Int :=
  match st.memory_profiles with
  | none => 0
  | some profs => (profs.getD i default).last_used

/-! ## Shared accounting region (src/src/main.c lines 860-897, 1152-1328)

`struct shared_memory_data` holds `reservation_count` (`unsigned int`), a
fixed array `reservations[MAX_RESERVATIONS]` of `(pid, reserved_mb)` pairs,
and the two `unsigned long` scalars `unused_peaks_mb` and
`total_reserved_mb`.  `unsigned long` arithmetic wraps modulo `2 ^ 64`;
the helpers below make the wrap explicit. -/

def MAX_RESERVATIONS : Nat := 64

def U64MOD : Nat := 2 ^ 64

/-- 64-bit unsigned addition (wraps). -/
def uadd64 (a b : Nat) : Nat := (a + b) % U64MOD

/-- 64-bit unsigned subtraction `a - b` (wraps below zero). -/
def usub64 (a b : Nat) : Nat := (a + U64MOD - b % U64MOD) % U64MOD

structure PidReservation where
  pid : Nat
  reserved_mb : Nat
  deriving Repr, DecidableEq, Inhabited

structure SharedMemoryData where
  reservation_count : Nat
  reservations : List PidReservation
  unused_peaks_mb : Nat
  total_reserved_mb : Nat
  deriving Repr, DecidableEq

def slotAt (s : SharedMemoryData) (i : Nat) : PidReservation :=
  s.reservations.getD i default

def slotPid (s : SharedMemoryData) (i : Nat) : Nat := (slotAt s i).pid

def slotVal (s : SharedMemoryData) (i : Nat) : Nat := (slotAt s i).reserved_mb

/-- The scan `for (i = 0; i < count && i < MAX_RESERVATIONS; i++)` looking
for an existing entry for `pid` (main.c lines 1248-1253). -/
def findExistingSlot (s : SharedMemoryData) (pid : Nat) : Option Nat :=
  (List.range (min s.reservation_count MAX_RESERVATIONS)).find?
    (fun i => slotPid s i == pid)

/-- The scan over the whole table for the first slot with pid 0
(main.c lines 1261-1266). -/
def findEmptySlot (s : SharedMemoryData) : Option Nat :=
  (List.range MAX_RESERVATIONS).find? (fun i => slotPid s i == 0)

/-- Tail of `reserve_memory_mb` once the slot `i` for `pid` has been found or
created (main.c lines 1285-1324): `old_value = res->reserved_mb`, then either
the release branch (`mb <= 0`: subtract `old_value` from the total, zero the
slot value, clear the slot pid) or the overwrite branch (`mb > 0`: store the
new value and adjust the total by the signed delta, saturating at zero when
lowering). -/
def applyReservation (s : SharedMemoryData) (pid : Nat) (mb : Int) (i : Nat) :
    Int × SharedMemoryData :=
  let old_value := slotVal s i
  if mb ≤ 0 then
    let total1 := usub64 s.total_reserved_mb old_value
    let res1 : PidReservation := { slotAt s i with reserved_mb := 0 }
    let res2 := if res1.pid = pid then { res1 with pid := 0 } else res1
    ((if mb = 0 ∨ (mb < 0 ∧ old_value = (-mb).toNat) then 1 else 0),
      { s with total_reserved_mb := total1, reservations := s.reservations.set i res2 })
  else
    let mbn := mb.toNat
    let total1 :=
      if mbn ≥ old_value then uadd64 s.total_reserved_mb (mbn - old_value)
      else if s.total_reserved_mb < old_value - mbn then 0
      else s.total_reserved_mb - (old_value - mbn)
    (0, { s with
          reservations := s.reservations.set i { slotAt s i with reserved_mb := mbn }
          total_reserved_mb := total1 })

/-- Embedding of `reserve_memory_mb` (main.c lines 1222-1328).  The C
function operates on the mapped region through a pointer; here the region is
passed and returned explicitly and the return code is paired with the new
state.  Failure paths that leave the region untouched (shared memory not
mapped) are represented by the caller simply not invoking this function. -/
def reserve_memory_mb (s : SharedMemoryData) (pid : Nat) (mb : Int) :
    Int × SharedMemoryData :=
  match findExistingSlot s pid with
  | some i => applyReservation s pid mb i
  | none =>
    if mb = 0 then (0, s)
    else
      match findEmptySlot s with
      | none => (0, s)
      | some j =>
        let s1 : SharedMemoryData :=
          { s with
            reservations := s.reservations.set j { pid := pid, reserved_mb := 0 }
            reservation_count :=
              if j ≥ s.reservation_count then j + 1 else s.reservation_count }
        applyReservation s1 pid mb j

/-- Embedding of `get_imminent_memory_mb` (main.c lines 1152-1179): the
(unsigned long) sum of the two scalars read from the shared region, or 0
when the region is unavailable. -/
def get_imminent_memory_mb (shared_data : Option SharedMemoryData) : Nat :=
  match shared_data with
  | none => 0
  | some s => uadd64 s.total_reserved_mb s.unused_peaks_mb

/-- The reservation currently held under `pid`: the value of the slot the
existing-entry scan finds, 0 when there is none. -/
def reservedFor (s : SharedMemoryData) (pid : Nat) : Nat :=
  match findExistingSlot s pid with
  | some i => slotVal s i
  | none => 0

/-- Well-formedness of the shared region: the table has its fixed size,
the count is a high-water mark (slots at or beyond it are free), and a
nonzero pid occupies at most one slot. -/
def WFShared (s : SharedMemoryData) : Prop :=
  s.reservations.length = MAX_RESERVATIONS ∧
  s.reservation_count ≤ MAX_RESERVATIONS ∧
  (∀ i < MAX_RESERVATIONS, s.reservation_count ≤ i → slotPid s i = 0) ∧
  (∀ i < MAX_RESERVATIONS, ∀ j < MAX_RESERVATIONS,
    slotPid s i = slotPid s j → slotPid s i ≠ 0 → i = j)

instance instDecidableWFShared (s : SharedMemoryData) : Decidable (WFShared s) := by
  unfold WFShared
  infer_instance

/-! ## Admission gate -/

/-- The profile lookup the gate performs for its hint: linear scan of the
first `memory_profile_count` entries for a matching filename (the loop
pattern of main.c lines 1612-1620), yielding the stored peak, or 0 when the
hint is absent, unmatched, or the array is NULL. -/
def peak_from_profile (st : ProfileStore) (hint : Option String) : Nat :=
  match hint with
  | none => 0
  | some path =>
    match st.memory_profiles with
    | none => 0
    | some profs =>
      match (profs.take st.memory_profile_count).find?
          (fun e => e.filename == some path) with
      | some e => e.peak_memory_mb
      | none => 0

/-- Modelled from the spec: the admission gate `may_spawn` lives in the
recipe runner (job.c), which is not among the provided sources; only its
collaborators `get_imminent_memory_mb` and `reserve_memory_mb` are.
Following spec section 4.7: `required` is the stored peak for the hint
(zero when unknown), `effective_free` is the saturating difference of free
memory and the imminent total read via `get_imminent_memory_mb`; the gate
returns go when `required` is zero or at most `effective_free`, and then
immediately writes a reservation of `required` under the caller's pid via
`reserve_memory_mb`; with unknown free memory (spec sections 4.1 and 8) it
always returns go. -/
def may_spawn (st : ProfileStore) (hint : Option String) (free_mb : Option Nat)
    (caller_pid : Nat) (s : SharedMemoryData) : Bool × SharedMemoryData :=
  match free_mb with
  | none => (true, s)
  | some free =>
    let required := peak_from_profile st hint
    let imminent := get_imminent_memory_mb (some s)
    let effective_free := free - imminent
    if required = 0 ∨ required ≤ effective_free then
      (true, (reserve_memory_mb s caller_pid (required : Int)).2)
    else (false, s)

/-! ## Descendant walker (src/src/main.c lines 888-897, 1507-1716) -/

/-- One entry of `main_monitoring_data.descendants`. -/
structure DescendantEntry where
  pid : Nat
  peak_mb : Nat
  old_peak_mb : Nat
  current_mb : Nat
  profile_idx : Int
  deriving Repr, DecidableEq

/-- Per-descendant unused-peak shortfall accumulated by
`find_child_descendants` (main.c lines 1692-1694):
`old_peak_mb > current_mb ? old_peak_mb - current_mb : 0`. -/
def unusedPeakContribution (old_peak_mb current_mb : Nat) : Nat :=
  if old_peak_mb > current_mb then old_peak_mb - current_mb else 0

/-- The reservation release the walker performs when it first tracks a newly
discovered descendant whose profile has a positive historical peak
(main.c line 1676): `reserve_memory_mb(pid, -profile_peak_mb, ...)`, where
`pid` is the discovered descendant's own pid. -/
def walker_release_on_discover (s : SharedMemoryData) (pid : Nat)
    (profile_peak_mb : Nat) : SharedMemoryData :=
  if 0 < profile_peak_mb then (reserve_memory_mb s pid (-(profile_peak_mb : Int))).2
  else s

/-- The per-tick memory update for a tracked descendant (main.c lines
1696-1709): `new_current_mb = (rss_kb + child_rss_kb) / 1024`, written back
only when it exceeds the stored value or the entry was created this tick,
with the peak raised alongside. -/
def walker_update_descendant (d : DescendantEntry) (rss_kb child_rss_kb : Nat)
    (new_descendant : Bool) : DescendantEntry :=
  let new_current_mb := (rss_kb + child_rss_kb) / 1024
  if new_current_mb > d.current_mb ∨ new_descendant = true then
    let d1 := { d with current_mb := new_current_mb }
    if new_current_mb > d1.peak_mb then { d1 with peak_mb := new_current_mb } else d1
  else d

/-! ## Command-line classifier (src/unnamed/part_003 lines 252-360)

`extract_filename_common` scans a NUL-free text buffer (an argv joined by
spaces, or a cmdline whose NUL separators were replaced by spaces) for the
last occurrence of ".cpp" / ".cc" (anywhere) or ".c" (followed by a space
or the end of the text) whose surrounding space-delimited token has a '/'
at or before the end of the match, then returns the characters from the
last space-or-double-quote boundary through the end of the match, with
leading "../" stripped. -/

/-- Suffix match at position `i` (part_003 lines 286-292), returning the
position of the last character of the match. -/
def matchSuffixAt (t : List Char) (i : Nat) : Option Nat :=
  if (t.drop i).take 4 = ['.', 'c', 'p', 'p'] then some (i + 3)
  else if (t.drop i).take 3 = ['.', 'c', 'c'] then some (i + 2)
  else if (t.drop i).take 2 = ['.', 'c'] ∧ (i + 2 ≥ t.length ∨ t.getD (i + 2) 'x' = ' ')
    then some (i + 1)
  else none

/-- Backtrack from position `i` to the nearest boundary on the left: the
greatest `j ≤ i` with `j = 0` or the character before `j` in `stops`
(the loops at part_003 lines 296-298 and 322-324). -/
def backtrackStart (t : List Char) (stops : List Char) : Nat → Nat
  | 0 => 0
  | i + 1 => if t.getD i 'x' ∈ stops then i + 1 else backtrackStart t stops i

/-- The slash test for a candidate at scan position `i` ending at `e`
(part_003 lines 300-309): a '/' between the space-bounded token start and
`e` inclusive. -/
def slashCheck (t : List Char) (i e : Nat) : Bool :=
  (List.range' (backtrackStart t [' '] i) (e + 1 - backtrackStart t [' '] i)).any
    (fun k => t.getD k 'x' == '/')

/-- One iteration of the scan loop (part_003 lines 281-317): the candidate
end retained at position `i`, if any. -/
def qualAt (t : List Char) (i : Nat) : Option Nat :=
  match matchSuffixAt t i with
  | none => none
  | some e => if slashCheck t i e then some e else none

/-- The whole scan (part_003 lines 279-317): `end` after the loop, i.e. the
last qualifying assignment. -/
def scanLastEnd (t : List Char) : Option Nat :=
  (List.range t.length).foldl (fun acc i => (qualAt t i).or acc) none

/-- The strip of leading "../" sequences (part_003 lines 331-334). -/
def stripDotDotSlash : List Char → List Char
  | '.' :: '.' :: '/' :: rest => stripDotDotSlash rest
  | l => l

/-- Embedding of `extract_filename_common` (part_003 lines 254-360; the
debug temp-file write is I/O only and carries no result). -/
def extract_filename_common (t : List Char) : Option (List Char) :=
  match scanLastEnd t with
  | none => none
  | some e =>
    let s := backtrackStart t [' ', '"'] e
    let len := e - s + 1
    if len < 1000 then some (stripDotDotSlash ((t.drop s).take len))
    else none

/-- The classifier as claim C5 words it: the last space-separated token
that ends in ".cpp", ".cc" or ".c" and contains a '/', with leading "../"
stripped; none when no token qualifies. -/
def endsInSourceSuffix (tok : List Char) : Bool :=
  tok.reverse.take 4 == ['p', 'p', 'c', '.'] ||
  tok.reverse.take 3 == ['c', 'c', '.'] ||
  tok.reverse.take 2 == ['c', '.']

def classifySpecC5 (t : List Char) : Option (List Char) :=
  match ((t.splitOn ' ').filter
      (fun tok => endsInSourceSuffix tok && tok.contains '/')).getLast? with
  | some tok => some (stripDotDotSlash tok)
  | none => none

/-- The last qualifying scan position's candidate end, phrased as a search
from the right rather than as the loop's last assignment. -/
def lastQualifyingEnd (t : List Char) : Option Nat :=
  ((List.range t.length).reverse.find? (fun i => (qualAt t i).isSome)).bind (qualAt t)

theorem getD_set_self {l : List FileMemoryProfile} {i : Nat} {e d : FileMemoryProfile}
    (h : i < l.length) : (l.set i e).getD i d = e := by
  simp [List.getD, List.getElem?_set_self, h]

/-- Unfolding of `record_file_memory_usage_by_index` on a valid index into an
allocated store. -/
theorem record_valid_eq (profs : List FileMemoryProfile) (cnt : Nat) (dirty : Bool)
    (i x : Nat) (final : Bool) (now : Int) (hcnt : i < cnt) :
    record_file_memory_usage_by_index ⟨some profs, cnt, dirty⟩ (i : Int) x final now =
      (if x ≤ (profs.getD i default).peak_memory_mb ∧ final = false
        then (⟨some profs, cnt, dirty⟩ : ProfileStore)
        else ⟨some (profs.set i
                { profs.getD i default with
                  peak_memory_mb :=
                    if final = true ∧ x < (profs.getD i default).peak_memory_mb
                      then (profs.getD i default).peak_memory_mb
                        - ((profs.getD i default).peak_memory_mb - x) / 3
                      else x
                  last_used := now }),
              cnt, true⟩) := by
  have hguard : ¬((i : Int) < 0 ∨ i ≥ cnt) := by
    push_neg
    exact ⟨Int.natCast_nonneg i, hcnt⟩
  simp only [record_file_memory_usage_by_index, Int.toNat_natCast, if_neg hguard]

/-- Specialization of `record_valid_eq` to a final update. -/
theorem record_final_eq (profs : List FileMemoryProfile) (cnt : Nat) (dirty : Bool)
    (i x : Nat) (now : Int) (hcnt : i < cnt) :
    record_file_memory_usage_by_index ⟨some profs, cnt, dirty⟩ (i : Int) x true now =
      ⟨some (profs.set i
          { profs.getD i default with
            peak_memory_mb :=
              if x < (profs.getD i default).peak_memory_mb
                then (profs.getD i default).peak_memory_mb
                  - ((profs.getD i default).peak_memory_mb - x) / 3
                else x
            last_used := now }),
        cnt, true⟩ := by
  rw [record_valid_eq profs cnt dirty i x true now hcnt]
  simp

/-- C1: a final update on a valid profile index leaves the stored peak equal
to the observed value `x` when the previous peak `p` satisfies `p ≤ x`, and
equal to `p - (p - x) / 3` when `p > x`; in both cases the dirty flag is set. -/
theorem final_update_peak_decay (profs : List FileMemoryProfile) (cnt : Nat)
    (dirty : Bool) (i x : Nat) (now : Int) (hcnt : i < cnt) (hlen : cnt ≤ profs.length) :
    (peakAt ⟨some profs, cnt, dirty⟩ i ≤ x →
      peakAt (record_file_memory_usage_by_index ⟨some profs, cnt, dirty⟩ (i : Int) x true now) i = x)
    ∧ (x < peakAt ⟨some profs, cnt, dirty⟩ i →
      peakAt (record_file_memory_usage_by_index ⟨some profs, cnt, dirty⟩ (i : Int) x true now) i
        = peakAt ⟨some profs, cnt, dirty⟩ i - (peakAt ⟨some profs, cnt, dirty⟩ i - x) / 3)
    ∧ (record_file_memory_usage_by_index ⟨some profs, cnt, dirty⟩ (i : Int) x true now).memory_profiles_dirty
        = true := by
  have hi : i < profs.length := lt_of_lt_of_le hcnt hlen
  have hp : peakAt ⟨some profs, cnt, dirty⟩ i = (profs.getD i default).peak_memory_mb := rfl
  rw [record_final_eq profs cnt dirty i x now hcnt]
  refine ⟨?_, ?_, rfl⟩
  · intro hle
    rw [hp] at hle
    simp only [peakAt]
    rw [getD_set_self hi]
    dsimp only
    rw [if_neg (Nat.not_lt.mpr hle)]
  · intro hlt
    rw [hp] at hlt
    simp only [peakAt]
    rw [getD_set_self hi]
    dsimp only
    rw [if_pos hlt]

theorem final_update_peak_decay_witness :
    (0 : Nat) < 1 ∧ (1 : Nat) ≤ 1 ∧
      (peakAt ⟨some [⟨none, 900, 0⟩], 1, false⟩ 0 ≤ 950 →
        peakAt (record_file_memory_usage_by_index ⟨some [⟨none, 900, 0⟩], 1, false⟩ 0 950 true 7) 0 = 950)
    ∧ (600 < peakAt ⟨some [⟨none, 900, 0⟩], 1, false⟩ 0 →
      peakAt (record_file_memory_usage_by_index ⟨some [⟨none, 900, 0⟩], 1, false⟩ 0 600 true 7) 0
        = peakAt ⟨some [⟨none, 900, 0⟩], 1, false⟩ 0 - (peakAt ⟨some [⟨none, 900, 0⟩], 1, false⟩ 0 - 600) / 3)
    ∧ (record_file_memory_usage_by_index ⟨some [⟨none, 900, 0⟩], 1, false⟩ 0 600 true 7).memory_profiles_dirty
        = true :=
  ⟨Nat.zero_lt_one, le_refl 1,
    (final_update_peak_decay [⟨none, 900, 0⟩] 1 false 0 950 7 Nat.zero_lt_one (le_refl 1)).1,
    (final_update_peak_decay [⟨none, 900, 0⟩] 1 false 0 600 7 Nat.zero_lt_one (le_refl 1)).2.1,
    (final_update_peak_decay [⟨none, 900, 0⟩] 1 false 0 600 7 Nat.zero_lt_one (le_refl 1)).2.2⟩

/-- C9: a call whose profile index is negative or not below
`memory_profile_count`, or made while the profiles array is NULL, returns
the store unchanged (guarded no-op). -/
theorem record_out_of_range_noop (st : ProfileStore) (profile_idx : Int)
    (x : Nat) (final : Bool) (now : Int)
    (h : profile_idx < 0 ∨ profile_idx.toNat ≥ st.memory_profile_count ∨
      st.memory_profiles = none) :
    record_file_memory_usage_by_index st profile_idx x final now = st := by
  unfold record_file_memory_usage_by_index
  by_cases hc : profile_idx < 0 ∨ profile_idx.toNat ≥ st.memory_profile_count
  · rw [if_pos hc]
  · rw [if_neg hc]
    have hn : st.memory_profiles = none := by tauto
    rw [hn]

theorem record_out_of_range_noop_witness :
    ((5 : Int) < 0 ∨ (5 : Int).toNat ≥ (ProfileStore.mk (some []) 0 false).memory_profile_count ∨
        (ProfileStore.mk (some []) 0 false).memory_profiles = none)
    ∧ record_file_memory_usage_by_index ⟨some [], 0, false⟩ 5 10 true 3 = ⟨some [], 0, false⟩ :=
  ⟨Or.inr (Or.inl (by decide)),
    record_out_of_range_noop ⟨some [], 0, false⟩ 5 10 true 3 (Or.inr (Or.inl (by decide)))⟩

/-- C8 counterexample: on the store holding one profile with peak 10 and
last-used 0, a non-final call with observed value 5 (which does not exceed
the stored peak) leaves last_used at 0 even though now = 999: the claim
that every valid-index call sets last_used to the current time is false. -/
theorem record_last_used_counterexample :
    lastUsedAt (record_file_memory_usage_by_index ⟨some [⟨none, 10, 0⟩], 1, false⟩ 0 5 false 999) 0 = 0
    ∧ (999 : Int) ≠ 0 := by
  constructor
  · rfl
  · decide

/-- C8 amended: a call with a valid profile index sets last_used to the
current time when it is final or its observed value exceeds the stored
peak; a non-final call whose observed value does not exceed the stored
peak returns the store unchanged (so last_used is untouched). -/
theorem record_last_used_amended (profs : List FileMemoryProfile) (cnt : Nat)
    (dirty : Bool) (i x : Nat) (final : Bool) (now : Int)
    (hcnt : i < cnt) (hlen : cnt ≤ profs.length) :
    ((final = true ∨ (profs.getD i default).peak_memory_mb < x) →
      lastUsedAt (record_file_memory_usage_by_index ⟨some profs, cnt, dirty⟩ (i : Int) x final now) i = now)
    ∧ (final = false → x ≤ (profs.getD i default).peak_memory_mb →
      record_file_memory_usage_by_index ⟨some profs, cnt, dirty⟩ (i : Int) x final now
        = ⟨some profs, cnt, dirty⟩) := by
  rw [record_valid_eq profs cnt dirty i x final now hcnt]
  constructor
  · intro h
    have hcond : ¬(x ≤ (profs.getD i default).peak_memory_mb ∧ final = false) := by
      rcases h with h | h
      · simp [h]
      · exact fun hc => absurd hc.1 (Nat.not_le.mpr h)
    rw [if_neg hcond]
    simp only [lastUsedAt]
    rw [getD_set_self (lt_of_lt_of_le hcnt hlen)]
  · intro hf hle
    rw [if_pos ⟨hle, hf⟩]

theorem record_last_used_amended_witness :
    (0 : Nat) < 1 ∧ (1 : Nat) ≤ 1 ∧
      lastUsedAt (record_file_memory_usage_by_index ⟨some [⟨none, 10, 0⟩], 1, false⟩ 0 4 true 77) 0 = 77
    ∧ record_file_memory_usage_by_index ⟨some [⟨none, 10, 0⟩], 1, false⟩ 0 4 false 77
        = ⟨some [⟨none, 10, 0⟩], 1, false⟩ :=
  ⟨Nat.zero_lt_one, le_refl 1,
    (record_last_used_amended [⟨none, 10, 0⟩] 1 false 0 4 true 77 Nat.zero_lt_one (le_refl 1)).1
      (Or.inl rfl),
    (record_last_used_amended [⟨none, 10, 0⟩] 1 false 0 4 false 77 Nat.zero_lt_one (le_refl 1)).2
      rfl (by decide)⟩

/-! ### Helper lemmas about the reservation table -/

theorem getD_set_self_pr {l : List PidReservation} {i : Nat} {e d : PidReservation}
    (h : i < l.length) : (l.set i e).getD i d = e := by
  simp [List.getD, List.getElem?_set_self, h]

theorem getD_set_ne_pr {l : List PidReservation} {i j : Nat} {e d : PidReservation}
    (h : i ≠ j) : (l.set i e).getD j d = l.getD j d := by
  simp [List.getD, List.getElem?_set_ne h]

theorem slotPid_of_ge_length {s : SharedMemoryData} {i : Nat}
    (h : s.reservations.length ≤ i) : slotPid s i = 0 := by
  simp [slotPid, slotAt, List.getD, List.getElem?_eq_none h]
  rfl

theorem find_existing_some {s : SharedMemoryData} {pid : Nat} {i : Nat}
    (h : findExistingSlot s pid = some i) :
    i < min s.reservation_count MAX_RESERVATIONS ∧ slotPid s i = pid := by
  have h1 := List.find?_some h
  have h2 := List.mem_of_find?_eq_some h
  rw [List.mem_range] at h2
  exact ⟨h2, by simpa using h1⟩

theorem find_existing_none {s : SharedMemoryData} {pid : Nat}
    (h : findExistingSlot s pid = none) :
    ∀ i < min s.reservation_count MAX_RESERVATIONS, slotPid s i ≠ pid := by
  intro i hi
  have := List.find?_eq_none.mp h i (List.mem_range.mpr hi)
  simpa using this

theorem find_empty_some {s : SharedMemoryData} {j : Nat}
    (h : findEmptySlot s = some j) : j < MAX_RESERVATIONS ∧ slotPid s j = 0 := by
  have h1 := List.find?_some h
  have h2 := List.mem_of_find?_eq_some h
  rw [List.mem_range] at h2
  exact ⟨h2, by simpa using h1⟩

/-- In a well-formed region, when the existing-entry scan misses, no slot at
all carries the pid. -/
theorem no_slot_eq_pid {s : SharedMemoryData} {pid : Nat} (hwf : WFShared s)
    (hpid : pid ≠ 0) (h : findExistingSlot s pid = none) :
    ∀ i, slotPid s i ≠ pid := by
  intro i
  by_cases hiR : i < MAX_RESERVATIONS
  · by_cases hic : i < s.reservation_count
    · exact find_existing_none h i (lt_min hic hiR)
    · rw [hwf.2.2.1 i hiR (le_of_not_lt hic)]
      exact Ne.symm hpid
  · rw [slotPid_of_ge_length (by rw [hwf.1]; exact le_of_not_lt hiR)]
    exact Ne.symm hpid

/-- In a well-formed region a nonzero pid sits in at most one slot. -/
theorem slot_pid_unique {s : SharedMemoryData} {i k pid : Nat} (hwf : WFShared s)
    (hiR : i < MAX_RESERVATIONS) (hip : slotPid s i = pid) (hpid : pid ≠ 0)
    (hk : k ≠ i) : slotPid s k ≠ pid := by
  intro hkp
  by_cases hkR : k < MAX_RESERVATIONS
  · exact hk (hwf.2.2.2 k hkR i hiR (by rw [hkp, hip]) (by rw [hkp]; exact hpid))
  · rw [slotPid_of_ge_length (by rw [hwf.1]; exact le_of_not_lt hkR)] at hkp
    exact hpid hkp.symm

/-- Equation for the release branch of `applyReservation` when the slot
indeed carries the pid being released. -/
theorem applyReservation_release_eq (s : SharedMemoryData) (pid : Nat) (mb : Int)
    (i : Nat) (hmb : mb ≤ 0) (hip : slotPid s i = pid) :
    (applyReservation s pid mb i).2 =
      { s with
        total_reserved_mb := usub64 s.total_reserved_mb (slotVal s i)
        reservations := s.reservations.set i ⟨0, 0⟩ } := by
  simp only [applyReservation, if_pos hmb]
  have hres : ({ slotAt s i with reserved_mb := 0 } : PidReservation).pid = pid := hip
  rw [if_pos hres]

/-- A release (`mb ≤ 0`) for a nonzero pid on a well-formed region leaves no
slot carrying that pid. -/
theorem reserve_release_no_pid (s : SharedMemoryData) (pid : Nat) (mb : Int)
    (hwf : WFShared s) (hpid : pid ≠ 0) (hmb : mb ≤ 0) :
    ∀ k, slotPid (reserve_memory_mb s pid mb).2 k ≠ pid := by
  intro k
  unfold reserve_memory_mb
  cases hfind : findExistingSlot s pid with
  | some i =>
    obtain ⟨hilt, hip⟩ := find_existing_some hfind
    have hiR : i < MAX_RESERVATIONS := lt_of_lt_of_le hilt (min_le_right _ _)
    have hil : i < s.reservations.length := by rw [hwf.1]; exact hiR
    rw [applyReservation_release_eq s pid mb i hmb hip]
    by_cases hk : k = i
    · subst hk
      show ((s.reservations.set k ⟨0, 0⟩).getD k default).pid ≠ pid
      rw [getD_set_self_pr hil]
      exact Ne.symm hpid
    · show ((s.reservations.set i ⟨0, 0⟩).getD k default).pid ≠ pid
      rw [getD_set_ne_pr (fun he => hk he.symm)]
      exact slot_pid_unique hwf hiR hip hpid hk
  | none =>
    by_cases hmb0 : mb = 0
    · rw [if_pos hmb0]
      exact no_slot_eq_pid hwf hpid hfind k
    · rw [if_neg hmb0]
      cases hempty : findEmptySlot s with
      | none => exact no_slot_eq_pid hwf hpid hfind k
      | some j =>
        obtain ⟨hjR, _⟩ := find_empty_some hempty
        have hjl : j < s.reservations.length := by rw [hwf.1]; exact hjR
        have hjl1 : j < (s.reservations.set j ⟨pid, 0⟩).length := by
          rw [List.length_set]; exact hjl
        have hs1p : slotPid
            { s with
              reservations := s.reservations.set j ⟨pid, 0⟩
              reservation_count :=
                if j ≥ s.reservation_count then j + 1 else s.reservation_count } j = pid := by
          show ((s.reservations.set j ⟨pid, 0⟩).getD j default).pid = pid
          rw [getD_set_self_pr hjl]
        rw [applyReservation_release_eq _ pid mb j hmb hs1p]
        show (((s.reservations.set j ⟨pid, 0⟩).set j ⟨0, 0⟩).getD k default).pid ≠ pid
        rw [List.set_set]
        by_cases hk : k = j
        · subst hk
          rw [getD_set_self_pr hjl]
          exact Ne.symm hpid
        · rw [getD_set_ne_pr (fun he => hk he.symm)]
          exact no_slot_eq_pid hwf hpid hfind k

/-- C7: after `reserve_memory_mb` is called with `mb ≤ 0` (a release) for a
nonzero pid on a well-formed region, no slot in the table carries that pid:
the slot's value is zeroed and its pid field cleared, freeing the slot. -/
theorem release_clears_pid (s : SharedMemoryData) (pid : Nat) (mb : Int)
    (hwf : WFShared s) (hpid : pid ≠ 0) (hmb : mb ≤ 0) :
    ∀ k, slotPid (reserve_memory_mb s pid mb).2 k ≠ pid :=
  reserve_release_no_pid s pid mb hwf hpid hmb

theorem release_clears_pid_witness :
    WFShared ⟨1, ⟨7, 5⟩ :: List.replicate 63 ⟨0, 0⟩, 0, 5⟩ ∧ (7 : Nat) ≠ 0 ∧ ((0 : Int) ≤ 0) ∧
      ∀ k, slotPid (reserve_memory_mb ⟨1, ⟨7, 5⟩ :: List.replicate 63 ⟨0, 0⟩, 0, 5⟩ 7 0).2 k ≠ 7 :=
  ⟨by decide, by decide, by decide,
    release_clears_pid ⟨1, ⟨7, 5⟩ :: List.replicate 63 ⟨0, 0⟩, 0, 5⟩ 7 0
      (by decide) (by decide) (by decide)⟩

/-! ### Arithmetic helpers for the accounting totals -/

theorem usub64_no_wrap {a b : Nat} (hba : b ≤ a) (ha : a < U64MOD) :
    usub64 a b = a - b := by
  unfold usub64 U64MOD at *
  omega

theorem uadd64_no_wrap {a b : Nat} (h : a + b < U64MOD) : uadd64 a b = a + b := by
  unfold uadd64 U64MOD at *
  omega

/-- Equation for the overwrite branch of `applyReservation` (`mb > 0`). -/
theorem applyReservation_overwrite_eq (s : SharedMemoryData) (pid : Nat) (mb : Int)
    (i : Nat) (hmb : ¬mb ≤ 0) :
    (applyReservation s pid mb i).2 =
      { s with
        reservations := s.reservations.set i { slotAt s i with reserved_mb := mb.toNat }
        total_reserved_mb :=
          if mb.toNat ≥ slotVal s i then uadd64 s.total_reserved_mb (mb.toNat - slotVal s i)
          else if s.total_reserved_mb < slotVal s i - mb.toNat then 0
          else s.total_reserved_mb - (slotVal s i - mb.toNat) } := by
  simp only [applyReservation, if_neg hmb]

/-- C4 counterexample: on a region whose running total (50) is smaller than
the slot value being released (100) — an integrity-mismatch state the spec
itself acknowledges can arise — the release subtraction
`total_reserved_mb -= old_value` wraps to `2^64 - 50` instead of
saturating at zero. -/
theorem release_underflow_counterexample :
    (reserve_memory_mb ⟨1, ⟨7, 100⟩ :: List.replicate 63 ⟨0, 0⟩, 0, 50⟩ 7 0).2.total_reserved_mb
        = U64MOD - 50
    ∧ U64MOD - 50 ≠ 0 := by
  constructor
  · rfl
  · decide

/-- C4 amended: the per-descendant shortfall and the reservation-lowering
subtraction do saturate at zero, but the release subtraction is plain
modular arithmetic: it equals the exact difference only when the slot value
does not exceed the running total (as the sum invariant guarantees), and
wraps otherwise. -/
theorem accounting_subtraction_behaviour :
    (∀ old_peak current : Nat, unusedPeakContribution old_peak current = old_peak - current)
    ∧ (∀ (s : SharedMemoryData) (pid i : Nat) (mb : Int),
        findExistingSlot s pid = some i → 0 < mb → mb.toNat < slotVal s i →
        (reserve_memory_mb s pid mb).2.total_reserved_mb
          = s.total_reserved_mb - (slotVal s i - mb.toNat))
    ∧ (∀ (s : SharedMemoryData) (pid i : Nat) (mb : Int),
        findExistingSlot s pid = some i → mb ≤ 0 →
        slotVal s i ≤ s.total_reserved_mb → s.total_reserved_mb < U64MOD →
        (reserve_memory_mb s pid mb).2.total_reserved_mb
          = s.total_reserved_mb - slotVal s i) := by
  refine ⟨?_, ?_, ?_⟩
  · intro old_peak current
    unfold unusedPeakContribution
    split <;> omega
  · intro s pid i mb hfind hpos hlt
    unfold reserve_memory_mb
    rw [hfind]
    rw [applyReservation_overwrite_eq s pid mb i (not_le.mpr hpos)]
    dsimp only
    rw [if_neg (not_le.mpr hlt)]
    split <;> omega
  · intro s pid i mb hfind hmb hle hov
    unfold reserve_memory_mb
    rw [hfind]
    rw [applyReservation_release_eq s pid mb i hmb (find_existing_some hfind).2]
    exact usub64_no_wrap hle hov

theorem accounting_subtraction_behaviour_witness :
    unusedPeakContribution 10 30 = 10 - 30
    ∧ (findExistingSlot ⟨1, ⟨7, 100⟩ :: List.replicate 63 ⟨0, 0⟩, 0, 200⟩ 7 = some 0 ∧
        (0 : Int) < 30 ∧ (30 : Int).toNat < slotVal ⟨1, ⟨7, 100⟩ :: List.replicate 63 ⟨0, 0⟩, 0, 200⟩ 0 ∧
        (reserve_memory_mb ⟨1, ⟨7, 100⟩ :: List.replicate 63 ⟨0, 0⟩, 0, 200⟩ 7 30).2.total_reserved_mb
          = 200 - (slotVal ⟨1, ⟨7, 100⟩ :: List.replicate 63 ⟨0, 0⟩, 0, 200⟩ 0 - (30 : Int).toNat))
    ∧ (findExistingSlot ⟨1, ⟨7, 100⟩ :: List.replicate 63 ⟨0, 0⟩, 0, 200⟩ 7 = some 0 ∧
        ((0 : Int) ≤ 0) ∧ slotVal ⟨1, ⟨7, 100⟩ :: List.replicate 63 ⟨0, 0⟩, 0, 200⟩ 0 ≤ 200 ∧
          (200 : Nat) < U64MOD ∧
        (reserve_memory_mb ⟨1, ⟨7, 100⟩ :: List.replicate 63 ⟨0, 0⟩, 0, 200⟩ 7 0).2.total_reserved_mb
          = 200 - slotVal ⟨1, ⟨7, 100⟩ :: List.replicate 63 ⟨0, 0⟩, 0, 200⟩ 0) :=
  ⟨accounting_subtraction_behaviour.1 10 30,
    ⟨by decide, by decide, by decide,
      accounting_subtraction_behaviour.2.1 ⟨1, ⟨7, 100⟩ :: List.replicate 63 ⟨0, 0⟩, 0, 200⟩ 7 0 30
        (by decide) (by decide) (by decide)⟩,
    ⟨by decide, by decide, by decide, by decide,
      accounting_subtraction_behaviour.2.2 ⟨1, ⟨7, 100⟩ :: List.replicate 63 ⟨0, 0⟩, 0, 200⟩ 7 0 0
        (by decide) (by decide) (by decide) (by decide)⟩⟩

/-- C3 counterexample: the pre-spawn reservation of 200 MiB is held under
the caller's pid 100 (total reserved 200); the walker then first observes
the spawned child pid 5000 with historical peak 200.  The release call at
main.c line 1676 passes the discovered pid 5000, not the caller's pid, so
the caller's slot survives untouched and the total stays at 200 instead of
returning to its pre-spawn level 0. -/
theorem implicit_release_parent_counterexample :
    reservedFor (walker_release_on_discover
        ⟨1, ⟨100, 200⟩ :: List.replicate 63 ⟨0, 0⟩, 0, 200⟩ 5000 200) 100 = 200
    ∧ (walker_release_on_discover
        ⟨1, ⟨100, 200⟩ :: List.replicate 63 ⟨0, 0⟩, 0, 200⟩ 5000 200).total_reserved_mb = 200
    ∧ (200 : Nat) ≠ 0 := by
  refine ⟨rfl, rfl, by decide⟩

/-- C3 amended: when the walker first observes a new descendant with
positive historical peak, it calls `reserve_memory_mb` with the discovered
child pid itself (under which job reservations are recorded, per the
comment on reserve_memory_mb); if that pid holds a reservation, the slot is
freed and the total drops by the slot's value. -/
theorem walker_release_discovered_pid (s : SharedMemoryData)
    (childPid peak i : Nat) (hwf : WFShared s) (hpid : childPid ≠ 0)
    (hpeak : 0 < peak) (hfind : findExistingSlot s childPid = some i)
    (hle : slotVal s i ≤ s.total_reserved_mb) (hov : s.total_reserved_mb < U64MOD) :
    (∀ k, slotPid (walker_release_on_discover s childPid peak) k ≠ childPid)
    ∧ (walker_release_on_discover s childPid peak).total_reserved_mb
        = s.total_reserved_mb - slotVal s i := by
  have hmb : (-(peak : Int)) ≤ 0 := neg_nonpos.mpr (Int.natCast_nonneg peak)
  unfold walker_release_on_discover
  rw [if_pos hpeak]
  constructor
  · exact reserve_release_no_pid s childPid _ hwf hpid hmb
  · unfold reserve_memory_mb
    rw [hfind]
    rw [applyReservation_release_eq s childPid _ i hmb (find_existing_some hfind).2]
    exact usub64_no_wrap hle hov

theorem walker_release_discovered_pid_witness :
    WFShared ⟨1, ⟨5000, 200⟩ :: List.replicate 63 ⟨0, 0⟩, 0, 200⟩ ∧ (5000 : Nat) ≠ 0
    ∧ (0 : Nat) < 200
    ∧ findExistingSlot ⟨1, ⟨5000, 200⟩ :: List.replicate 63 ⟨0, 0⟩, 0, 200⟩ 5000 = some 0
    ∧ ((∀ k, slotPid (walker_release_on_discover
          ⟨1, ⟨5000, 200⟩ :: List.replicate 63 ⟨0, 0⟩, 0, 200⟩ 5000 200) k ≠ 5000)
    ∧ (walker_release_on_discover
        ⟨1, ⟨5000, 200⟩ :: List.replicate 63 ⟨0, 0⟩, 0, 200⟩ 5000 200).total_reserved_mb
        = 200 - slotVal ⟨1, ⟨5000, 200⟩ :: List.replicate 63 ⟨0, 0⟩, 0, 200⟩ 0) :=
  ⟨by decide, by decide, by decide, by decide,
    walker_release_discovered_pid ⟨1, ⟨5000, 200⟩ :: List.replicate 63 ⟨0, 0⟩, 0, 200⟩ 5000 200 0
      (by decide) (by decide) (by decide) (by decide) (by decide) (by decide)⟩

/-! ### Helper lemmas for the admission gate -/

theorem find?_congr_on {α : Type} {l : List α} {p q : α → Bool}
    (h : ∀ x ∈ l, p x = q x) : l.find? p = l.find? q := by
  induction l with
  | nil => rfl
  | cons a t ih =>
    have ha := h a (List.mem_cons_self a t)
    cases hq : q a with
    | true =>
      rw [List.find?_cons_of_pos _ (ha.trans hq), List.find?_cons_of_pos _ hq]
    | false =>
      rw [List.find?_cons_of_neg _ (by rw [ha, hq]; decide),
        List.find?_cons_of_neg _ (by rw [hq]; decide)]
      exact ih fun x hx => h x (List.mem_cons_of_mem a hx)

theorem find?_range_first {p : Nat → Bool} {n j : Nat} (hj : j < n)
    (hpj : p j = true) (hbef : ∀ k < j, p k = false) :
    (List.range n).find? p = some j := by
  induction n with
  | zero => omega
  | succ n ih =>
    rw [List.range_succ, List.find?_append]
    by_cases hjn : j < n
    · rw [ih hjn]
      rfl
    · have hje : j = n := by omega
      subst hje
      have hnone : (List.range j).find? p = none :=
        List.find?_eq_none.mpr fun x hx => by
          rw [hbef x (List.mem_range.mp hx)]
          decide
      rw [hnone]
      simp [List.find?, hpj]

theorem getD_set_general_pr {l : List PidReservation} {i k : Nat}
    {e d : PidReservation} :
    (l.set i e).getD k d = if k = i ∧ i < l.length then e else l.getD k d := by
  by_cases hk : k = i
  · subst hk
    by_cases hil : k < l.length
    · rw [getD_set_self_pr hil]
      simp [hil]
    · rw [List.set_eq_of_length_le (le_of_not_lt hil)]
      simp [hil]
  · rw [getD_set_ne_pr fun he => hk he.symm]
    simp [hk]

theorem count_after_applyReservation (s : SharedMemoryData) (pid : Nat)
    (mb : Int) (i : Nat) :
    ((applyReservation s pid mb i).2).reservation_count = s.reservation_count := by
  unfold applyReservation
  split <;> rfl

theorem slotPid_after_overwrite (s : SharedMemoryData) (pid : Nat) (mb : Int)
    (i : Nat) (hmb : ¬mb ≤ 0) (k : Nat) :
    slotPid (applyReservation s pid mb i).2 k = slotPid s k := by
  rw [applyReservation_overwrite_eq s pid mb i hmb]
  show ((s.reservations.set i _).getD k default).pid = slotPid s k
  rw [getD_set_general_pr]
  by_cases hk : k = i ∧ i < s.reservations.length
  · rw [if_pos hk]
    show (slotAt s i).pid = slotPid s k
    rw [hk.1]
    rfl
  · rw [if_neg hk]
    rfl

theorem findExisting_eq_none_of_no_pid {s : SharedMemoryData} {pid : Nat}
    (h : ∀ k, slotPid s k ≠ pid) : findExistingSlot s pid = none :=
  List.find?_eq_none.mpr fun x _ => by simpa using h x

theorem reservedFor_of_none {s : SharedMemoryData} {pid : Nat}
    (h : findExistingSlot s pid = none) : reservedFor s pid = 0 := by
  unfold reservedFor
  rw [h]

theorem reservedFor_of_some {s : SharedMemoryData} {pid i : Nat}
    (h : findExistingSlot s pid = some i) : reservedFor s pid = slotVal s i := by
  unfold reservedFor
  rw [h]

/-- After `reserve_memory_mb` with a nonnegative request on a well-formed
region with room (an existing entry or a free slot), the reservation read
back under the pid equals the requested amount. -/
theorem reservedFor_after_reserve (s : SharedMemoryData) (pid req : Nat)
    (hpid : pid ≠ 0) (hwf : WFShared s)
    (hslot : findExistingSlot s pid ≠ none ∨ findEmptySlot s ≠ none) :
    reservedFor (reserve_memory_mb s pid (req : Int)).2 pid = req := by
  by_cases hreq : req = 0
  · subst hreq
    have hnone := findExisting_eq_none_of_no_pid
      (reserve_release_no_pid s pid ((0 : Nat) : Int) hwf hpid (by decide))
    rw [reservedFor_of_none hnone]
  · have hmb : ¬((req : Int) ≤ 0) := by
      rw [not_le]
      exact_mod_cast Nat.pos_of_ne_zero hreq
    unfold reserve_memory_mb
    cases hfind : findExistingSlot s pid with
    | some i =>
      obtain ⟨hilt, hip⟩ := find_existing_some hfind
      have hiR : i < MAX_RESERVATIONS := lt_of_lt_of_le hilt (min_le_right _ _)
      have hil : i < s.reservations.length := by rw [hwf.1]; exact hiR
      have hpids : ∀ k, slotPid (applyReservation s pid (req : Int) i).2 k = slotPid s k :=
        slotPid_after_overwrite s pid (req : Int) i hmb
      have hcnt := count_after_applyReservation s pid (req : Int) i
      have hfind2 : findExistingSlot (applyReservation s pid (req : Int) i).2 pid = some i := by
        unfold findExistingSlot
        rw [hcnt]
        rw [find?_congr_on (fun x _ => by rw [hpids x])]
        exact hfind
      rw [reservedFor_of_some hfind2]
      show ((applyReservation s pid (req : Int) i).2.reservations.getD i default).reserved_mb = req
      rw [applyReservation_overwrite_eq s pid (req : Int) i hmb]
      show ((s.reservations.set i _).getD i default).reserved_mb = req
      rw [getD_set_self_pr hil]
      exact Int.toNat_natCast req
    | none =>
      have hempty' : findEmptySlot s ≠ none := by
        rcases hslot with h | h
        · exact absurd hfind h
        · exact h
      cases hempty : findEmptySlot s with
      | none => exact absurd hempty hempty'
      | some j =>
        obtain ⟨hjR, _⟩ := find_empty_some hempty
        have hjl : j < s.reservations.length := by rw [hwf.1]; exact hjR
        rw [if_neg (by exact_mod_cast hreq)]
        set s1 : SharedMemoryData :=
          { s with
            reservations := s.reservations.set j ⟨pid, 0⟩
            reservation_count :=
              if j ≥ s.reservation_count then j + 1 else s.reservation_count } with hs1
        have hjl1 : j < s1.reservations.length := by
          rw [hs1]
          show j < (s.reservations.set j ⟨pid, 0⟩).length
          rw [List.length_set]
          exact hjl
        have hslot1 : slotAt s1 j = ⟨pid, 0⟩ := by
          show (s.reservations.set j ⟨pid, 0⟩).getD j default = ⟨pid, 0⟩
          exact getD_set_self_pr hjl
        have hpost := applyReservation_overwrite_eq s1 pid (req : Int) j hmb
        have hpostpid : ∀ k, slotPid (applyReservation s1 pid (req : Int) j).2 k
            = if k = j then pid else slotPid s k := by
          intro k
          rw [slotPid_after_overwrite s1 pid (req : Int) j hmb k]
          by_cases hk : k = j
          · subst hk
            rw [if_pos rfl]
            show (slotAt s1 k).pid = pid
            rw [hslot1]
          · rw [if_neg hk]
            show ((s.reservations.set j ⟨pid, 0⟩).getD k default).pid = slotPid s k
            rw [getD_set_ne_pr fun he => hk he.symm]
            rfl
        have hcnt1 : (applyReservation s1 pid (req : Int) j).2.reservation_count
            = s1.reservation_count := count_after_applyReservation s1 pid (req : Int) j
        have hjlt1 : j < min s1.reservation_count MAX_RESERVATIONS := by
          refine lt_min ?_ hjR
          rw [hs1]
          show j < if j ≥ s.reservation_count then j + 1 else s.reservation_count
          split <;> omega
        have hfind2 : findExistingSlot (applyReservation s1 pid (req : Int) j).2 pid = some j := by
          unfold findExistingSlot
          rw [hcnt1]
          refine find?_range_first (by exact hjlt1) ?_ ?_
          · rw [hpostpid j]
            simp
          · intro k hk
            rw [hpostpid k, if_neg (Nat.ne_of_lt hk)]
            have := no_slot_eq_pid hwf hpid hfind k
            simpa using this
        show reservedFor (applyReservation s1 pid (req : Int) j).2 pid = req
        rw [reservedFor_of_some hfind2]
        show ((applyReservation s1 pid (req : Int) j).2.reservations.getD j default).reserved_mb = req
        rw [hpost]
        show ((s1.reservations.set j _).getD j default).reserved_mb = req
        rw [getD_set_self_pr hjl1]
        exact Int.toNat_natCast req

/-- C2: with a known free-memory reading, the gate returns go exactly when
the required peak (stored profile peak, zero when unknown) is zero or at
most the saturating difference of free memory and the imminent total (the
sum of total_reserved_mb and unused_peaks_mb read from the shared region);
on go it immediately writes a reservation of the required amount under the
caller's pid.  With an unknown reading it always returns go. -/
theorem may_spawn_gate (st : ProfileStore) (hint : Option String) (free : Nat)
    (caller_pid : Nat) (s : SharedMemoryData) (hpid : caller_pid ≠ 0)
    (hwf : WFShared s)
    (hov : s.total_reserved_mb + s.unused_peaks_mb < U64MOD)
    (hroom : findExistingSlot s caller_pid ≠ none ∨ findEmptySlot s ≠ none) :
    ((may_spawn st hint (some free) caller_pid s).1 = true ↔
      peak_from_profile st hint = 0 ∨
        peak_from_profile st hint ≤ free - (s.total_reserved_mb + s.unused_peaks_mb))
    ∧ ((may_spawn st hint (some free) caller_pid s).1 = true →
        reservedFor (may_spawn st hint (some free) caller_pid s).2 caller_pid
          = peak_from_profile st hint)
    ∧ (may_spawn st hint none caller_pid s).1 = true := by
  have himm : get_imminent_memory_mb (some s)
      = s.total_reserved_mb + s.unused_peaks_mb := uadd64_no_wrap hov
  have heq0 : may_spawn st hint (some free) caller_pid s
      = if peak_from_profile st hint = 0 ∨
            peak_from_profile st hint ≤ free - get_imminent_memory_mb (some s)
        then (true, (reserve_memory_mb s caller_pid ((peak_from_profile st hint : Nat) : Int)).2)
        else (false, s) := rfl
  rw [himm] at heq0
  by_cases hgo : peak_from_profile st hint = 0 ∨
      peak_from_profile st hint ≤ free - (s.total_reserved_mb + s.unused_peaks_mb)
  · rw [if_pos hgo] at heq0
    rw [heq0]
    exact ⟨iff_of_true rfl hgo,
      fun _ => reservedFor_after_reserve s caller_pid (peak_from_profile st hint) hpid hwf hroom,
      rfl⟩
  · rw [if_neg hgo] at heq0
    rw [heq0]
    exact ⟨iff_of_false (by simp) hgo, fun h => absurd h (by simp), rfl⟩

theorem may_spawn_gate_witness :
    (42 : Nat) ≠ 0 ∧ WFShared ⟨0, List.replicate 64 ⟨0, 0⟩, 0, 0⟩
    ∧ (0 : Nat) + 0 < U64MOD
    ∧ (findExistingSlot ⟨0, List.replicate 64 ⟨0, 0⟩, 0, 0⟩ 42 ≠ none ∨
        findEmptySlot ⟨0, List.replicate 64 ⟨0, 0⟩, 0, 0⟩ ≠ none)
    ∧ (((may_spawn ⟨some [⟨some "src/b.cpp", 512, 0⟩], 1, false⟩ (some "src/b.cpp")
          (some 700) 42 ⟨0, List.replicate 64 ⟨0, 0⟩, 0, 0⟩).1 = true ↔
        peak_from_profile ⟨some [⟨some "src/b.cpp", 512, 0⟩], 1, false⟩ (some "src/b.cpp") = 0 ∨
          peak_from_profile ⟨some [⟨some "src/b.cpp", 512, 0⟩], 1, false⟩ (some "src/b.cpp")
            ≤ 700 - (0 + 0))
    ∧ ((may_spawn ⟨some [⟨some "src/b.cpp", 512, 0⟩], 1, false⟩ (some "src/b.cpp")
          (some 700) 42 ⟨0, List.replicate 64 ⟨0, 0⟩, 0, 0⟩).1 = true →
        reservedFor (may_spawn ⟨some [⟨some "src/b.cpp", 512, 0⟩], 1, false⟩ (some "src/b.cpp")
            (some 700) 42 ⟨0, List.replicate 64 ⟨0, 0⟩, 0, 0⟩).2 42
          = peak_from_profile ⟨some [⟨some "src/b.cpp", 512, 0⟩], 1, false⟩ (some "src/b.cpp"))
    ∧ (may_spawn ⟨some [⟨some "src/b.cpp", 512, 0⟩], 1, false⟩ (some "src/b.cpp")
          none 42 ⟨0, List.replicate 64 ⟨0, 0⟩, 0, 0⟩).1 = true) :=
  ⟨by decide, by decide, by decide, Or.inr (by decide),
    may_spawn_gate ⟨some [⟨some "src/b.cpp", 512, 0⟩], 1, false⟩ (some "src/b.cpp") 700 42
      ⟨0, List.replicate 64 ⟨0, 0⟩, 0, 0⟩ (by decide) (by decide) (by decide)
      (Or.inr (by decide))⟩

/-! ### Helper lemmas for the classifier -/

/-- If-form equation for `stripDotDotSlash`. -/
theorem stripDDS_eq (l : List Char) :
    stripDotDotSlash l
      = if l.take 3 = ['.', '.', '/'] then stripDotDotSlash (l.drop 3) else l := by
  rw [stripDotDotSlash.eq_def]
  split
  · simp
  · rename_i h
    rw [if_neg]
    intro hc
    have hl : l = '.' :: '.' :: '/' :: l.drop 3 := by
      conv_lhs => rw [← List.take_append_drop 3 l, hc]
      rfl
    exact h (l.drop 3) hl

theorem backtrackStart_le (t : List Char) (stops : List Char) :
    ∀ i, backtrackStart t stops i ≤ i
  | 0 => le_refl 0
  | i + 1 => by
    unfold backtrackStart
    split
    · exact le_refl _
    · exact le_trans (backtrackStart_le t stops i) (Nat.le_succ i)

theorem foldl_or_acc (g : Nat → Option Nat) (l : List Nat) (acc : Option Nat) :
    l.foldl (fun a i => (g i).or a) acc
      = ((l.reverse.find? fun i => (g i).isSome).bind g).or acc := by
  induction l generalizing acc with
  | nil => simp
  | cons x xs ih =>
    rw [List.foldl_cons, ih ((g x).or acc), List.reverse_cons, List.find?_append]
    cases hfind : xs.reverse.find? (fun i => (g i).isSome) with
    | some y =>
      have hy := List.find?_some hfind
      obtain ⟨v, hv⟩ := Option.isSome_iff_exists.mp (by simpa using hy)
      simp [hv]
    | none =>
      cases hgx : g x with
      | none => simp [hgx, List.find?_cons]
      | some v => simp [hgx, List.find?_cons]

theorem scanLastEnd_eq_lastQualifyingEnd (t : List Char) :
    scanLastEnd t = lastQualifyingEnd t := by
  unfold scanLastEnd lastQualifyingEnd
  rw [foldl_or_acc]
  simp

theorem qualAt_none_of_ge {t : List Char} {i : Nat} (h : t.length ≤ i) :
    qualAt t i = none := by
  unfold qualAt matchSuffixAt
  rw [List.drop_eq_nil_of_le h]
  simp

theorem matchSuffixAt_some_bounds {t : List Char} {i e : Nat}
    (h : matchSuffixAt t i = some e) : i < e ∧ e < t.length := by
  unfold matchSuffixAt at h
  split_ifs at h with h1 h2 h3
  · have hl := congrArg List.length h1
    simp at hl
    cases h
    omega
  · have hl := congrArg List.length h2
    simp at hl
    cases h
    omega
  · have hl := congrArg List.length h3.1
    simp at hl
    cases h
    omega

theorem qualAt_some_bounds {t : List Char} {i e : Nat}
    (h : qualAt t i = some e) : i < e ∧ e < t.length := by
  unfold qualAt at h
  cases hm : matchSuffixAt t i with
  | none => rw [hm] at h; cases h
  | some e1 =>
    rw [hm] at h
    dsimp only at h
    split_ifs at h
    cases h
    exact matchSuffixAt_some_bounds hm

theorem lastQualifyingEnd_none_iff (t : List Char) :
    lastQualifyingEnd t = none ↔ ∀ i, qualAt t i = none := by
  unfold lastQualifyingEnd
  constructor
  · intro h i
    by_cases hi : i < t.length
    · cases hf : (List.range t.length).reverse.find? (fun i => (qualAt t i).isSome) with
      | some j =>
        rw [hf] at h
        have hj := List.find?_some hf
        rw [Option.isSome_iff_exists] at hj
        obtain ⟨v, hv⟩ := by simpa using hj
        simp [hv] at h
      | none =>
        have := List.find?_eq_none.mp hf i
          (by rw [List.mem_reverse, List.mem_range]; exact hi)
        simpa using this
    · exact qualAt_none_of_ge (le_of_not_lt hi)
  · intro h
    rw [List.find?_eq_none.mpr (fun x _ => by simp [h x])]
    rfl

theorem lastQualifyingEnd_some_lt {t : List Char} {e : Nat}
    (h : lastQualifyingEnd t = some e) : e < t.length := by
  unfold lastQualifyingEnd at h
  cases hf : (List.range t.length).reverse.find? (fun i => (qualAt t i).isSome) with
  | none => rw [hf] at h; cases h
  | some j =>
    rw [hf] at h
    exact (qualAt_some_bounds (by simpa using h)).2

theorem extract_of_lastQual_some {t : List Char} {e : Nat} (hlen : t.length < 1000)
    (hlq : lastQualifyingEnd t = some e) :
    extract_filename_common t
      = some (stripDotDotSlash ((t.drop (backtrackStart t [' ', '"'] e)).take
          (e - backtrackStart t [' ', '"'] e + 1))) := by
  have he : e < t.length := lastQualifyingEnd_some_lt hlq
  unfold extract_filename_common
  rw [scanLastEnd_eq_lastQualifyingEnd, hlq]
  dsimp only
  rw [if_pos (by omega)]

theorem extract_of_lastQual_none {t : List Char}
    (hlq : lastQualifyingEnd t = none) : extract_filename_common t = none := by
  unfold extract_filename_common
  rw [scanLastEnd_eq_lastQualifyingEnd, hlq]

/-- C5 counterexample: on the buffer "cc build/x.cpp.o" no token ends in
one of the three suffixes, so the claim's classifier yields none; the code
matches ".cpp" inside the token "build/x.cpp.o" and returns "build/x.cpp". -/
theorem classifier_token_counterexample :
    extract_filename_common ("cc build/x.cpp.o".toList) = some ("build/x.cpp".toList)
    ∧ classifySpecC5 ("cc build/x.cpp.o".toList) = none := by
  constructor <;> decide

/-- C5 amended: for texts shorter than 1000 characters, the classifier
returns none exactly when no scan position carries a qualifying suffix
occurrence (".cpp"/".cc" anywhere in a token, ".c" at token end, with a
'/' in the token at or before the occurrence); otherwise it returns the
characters from the last space-or-quote boundary through the last
qualifying occurrence's end, with leading "../" stripped. -/
theorem classifier_last_occurrence (t : List Char) (hlen : t.length < 1000) :
    extract_filename_common t
      = (lastQualifyingEnd t).map (fun e =>
          stripDotDotSlash ((t.drop (backtrackStart t [' ', '"'] e)).take
            (e - backtrackStart t [' ', '"'] e + 1)))
    ∧ (extract_filename_common t = none ↔ ∀ i, qualAt t i = none) := by
  constructor
  · cases hlq : lastQualifyingEnd t with
    | none => rw [extract_of_lastQual_none hlq]; rfl
    | some e => rw [extract_of_lastQual_some hlen hlq]; rfl
  · rw [← lastQualifyingEnd_none_iff]
    constructor
    · intro h
      cases hlq : lastQualifyingEnd t with
      | none => rfl
      | some e => rw [extract_of_lastQual_some hlen hlq] at h; cases h
    · intro h
      exact extract_of_lastQual_none h

theorem classifier_last_occurrence_witness :
    ("g++ -c src/a.cpp -o a.o".toList.length < 1000)
    ∧ extract_filename_common ("g++ -c src/a.cpp -o a.o".toList)
        = (lastQualifyingEnd ("g++ -c src/a.cpp -o a.o".toList)).map (fun e =>
            stripDotDotSlash ((("g++ -c src/a.cpp -o a.o".toList).drop
                (backtrackStart ("g++ -c src/a.cpp -o a.o".toList) [' ', '"'] e)).take
              (e - backtrackStart ("g++ -c src/a.cpp -o a.o".toList) [' ', '"'] e + 1)))
    ∧ (extract_filename_common ("g++ -c src/a.cpp -o a.o".toList) = none ↔
        ∀ i, qualAt ("g++ -c src/a.cpp -o a.o".toList) i = none) :=
  ⟨by decide,
    (classifier_last_occurrence ("g++ -c src/a.cpp -o a.o".toList) (by decide)).1,
    (classifier_last_occurrence ("g++ -c src/a.cpp -o a.o".toList) (by decide)).2⟩

/-! ### Descendant current-RSS monotonicity -/

theorem walker_update_current_le (e : DescendantEntry) (rss_kb child_rss_kb : Nat) :
    e.current_mb ≤ (walker_update_descendant e rss_kb child_rss_kb false).current_mb := by
  unfold walker_update_descendant
  dsimp only
  by_cases h : (rss_kb + child_rss_kb) / 1024 > e.current_mb
  · rw [if_pos (Or.inl h)]
    split
    · exact le_of_lt h
    · exact le_of_lt h
  · rw [if_neg (by simp [h])]

/-- C10: for an already-tracked descendant, current_mb is overwritten by a
tick only when the newly computed RSS (own plus recursive children, in MiB)
strictly exceeds the stored value, so current_mb is non-decreasing across
any sequence of ticks and never reflects a drop in actual RSS. -/
theorem descendant_current_monotone (d : DescendantEntry)
    (ticks : List (Nat × Nat)) :
    d.current_mb ≤ (ticks.foldl
        (fun e t => walker_update_descendant e t.1 t.2 false) d).current_mb
    ∧ ∀ (e : DescendantEntry) (rss_kb child_rss_kb : Nat),
        (walker_update_descendant e rss_kb child_rss_kb false).current_mb ≠ e.current_mb →
        (rss_kb + child_rss_kb) / 1024 > e.current_mb := by
  constructor
  · induction ticks generalizing d with
    | nil => exact le_refl _
    | cons x xs ih =>
      rw [List.foldl_cons]
      exact le_trans (walker_update_current_le d x.1 x.2)
        (ih (walker_update_descendant d x.1 x.2 false))
  · intro e rss_kb child_rss_kb hne
    by_contra h
    apply hne
    unfold walker_update_descendant
    dsimp only
    rw [if_neg (by simp [h])]

theorem descendant_current_monotone_witness :
    (⟨5000, 10, 20, 10, 0⟩ : DescendantEntry).current_mb
      ≤ (([((20480 : Nat), (0 : Nat))]).foldl
          (fun e t => walker_update_descendant e t.1 t.2 false)
          ⟨5000, 10, 20, 10, 0⟩).current_mb
    ∧ (20480 + 0) / 1024 > (⟨5000, 10, 20, 10, 0⟩ : DescendantEntry).current_mb :=
  ⟨(descendant_current_monotone ⟨5000, 10, 20, 10, 0⟩ [(20480, 0)]).1,
    (descendant_current_monotone ⟨5000, 10, 20, 10, 0⟩ [(20480, 0)]).2
      ⟨5000, 10, 20, 10, 0⟩ 20480 0 (by decide)⟩

/-! ### Structure of stripDotDotSlash -/

theorem stripDDS_exists_drop : ∀ (n : Nat) (l : List Char), l.length ≤ n →
    ∃ m, stripDotDotSlash l = l.drop m := by
  intro n
  induction n with
  | zero =>
    intro l h
    have hl : l = [] := List.eq_nil_of_length_eq_zero (by omega)
    subst hl
    exact ⟨0, rfl⟩
  | succ n ih =>
    intro l hl
    rw [stripDDS_eq l]
    by_cases h3 : l.take 3 = ['.', '.', '/']
    · rw [if_pos h3]
      have hlen3 : 3 ≤ l.length := by
        have := congrArg List.length h3
        simp at this
        omega
      obtain ⟨m, hm⟩ := ih (l.drop 3) (by simp; omega)
      refine ⟨m + 3, ?_⟩
      rw [hm, List.drop_drop]
      congr 1
      omega
    · rw [if_neg h3]
      exact ⟨0, rfl⟩

theorem stripDDS_take3_ne : ∀ (n : Nat) (l : List Char), l.length ≤ n →
    (stripDotDotSlash l).take 3 ≠ ['.', '.', '/'] := by
  intro n
  induction n with
  | zero =>
    intro l h
    have hl : l = [] := List.eq_nil_of_length_eq_zero (by omega)
    subst hl
    decide
  | succ n ih =>
    intro l hl
    rw [stripDDS_eq l]
    by_cases h3 : l.take 3 = ['.', '.', '/']
    · rw [if_pos h3]
      have hlen3 : 3 ≤ l.length := by
        have := congrArg List.length h3
        simp at this
        omega
      exact ih (l.drop 3) (by simp; omega)
    · rw [if_neg h3]
      exact h3

theorem stripDDS_idem (l : List Char) :
    stripDotDotSlash (stripDotDotSlash l) = stripDotDotSlash l := by
  rw [stripDDS_eq (stripDotDotSlash l),
    if_neg (stripDDS_take3_ne l.length l (le_refl _))]

/-- Stripping "../" chunks from a text ending in a suffix pattern (which
begins '.', 'c') never eats into the pattern. -/
theorem stripDDS_append_keep : ∀ (n : Nat) (pre rest : List Char), pre.length ≤ n →
    ∃ m, m ≤ pre.length ∧
      stripDotDotSlash (pre ++ '.' :: 'c' :: rest) = pre.drop m ++ '.' :: 'c' :: rest := by
  intro n
  induction n with
  | zero =>
    intro pre rest h
    have hl : pre = [] := List.eq_nil_of_length_eq_zero (by omega)
    subst hl
    refine ⟨0, Nat.zero_le _, ?_⟩
    rw [stripDDS_eq]
    rw [if_neg (by simp)]
    rfl
  | succ n ih =>
    intro pre rest hl
    rw [stripDDS_eq]
    by_cases h3 : (pre ++ '.' :: 'c' :: rest).take 3 = ['.', '.', '/']
    · rw [if_pos h3]
      match pre with
      | [] => simp at h3
      | [a] => simp at h3
      | [a, b] => simp at h3
      | a :: b :: c :: pre3 =>
        have hdrop : (a :: b :: c :: pre3 ++ '.' :: 'c' :: rest).drop 3
            = pre3 ++ '.' :: 'c' :: rest := rfl
        rw [hdrop]
        obtain ⟨m, hm, heq⟩ := ih pre3 rest (by
          have : (a :: b :: c :: pre3).length = pre3.length + 3 := by simp
          omega)
        refine ⟨m + 3, by simp; omega, ?_⟩
        rw [heq]
        rfl
    · rw [if_neg h3]
      exact ⟨0, Nat.zero_le _, rfl⟩

/-! ### Backtracking boundaries -/

theorem backtrackStart_boundary (t : List Char) (stops : List Char) :
    ∀ i, backtrackStart t stops i = 0 ∨
      (0 < backtrackStart t stops i ∧
        t.getD (backtrackStart t stops i - 1) 'x' ∈ stops)
  | 0 => Or.inl rfl
  | i + 1 => by
    unfold backtrackStart
    split
    · rename_i h
      exact Or.inr ⟨Nat.succ_pos i, by simpa using h⟩
    · exact backtrackStart_boundary t stops i

theorem backtrackStart_no_stops (t : List Char) (stops : List Char) :
    ∀ i k, backtrackStart t stops i ≤ k → k < i → t.getD k 'x' ∉ stops
  | 0, k, _, hk => absurd hk (Nat.not_lt_zero k)
  | i + 1, k, hle, hk => by
    revert hle
    unfold backtrackStart
    split
    · intro hle
      omega
    · rename_i h
      intro hle
      by_cases hki : k = i
      · subst hki
        exact h
      · exact backtrackStart_no_stops t stops i k hle (by omega)

theorem backtrackStart_eq_zero (t : List Char) (stops : List Char) :
    ∀ i, (∀ k, k < i → t.getD k 'x' ∉ stops) → backtrackStart t stops i = 0
  | 0, _ => rfl
  | i + 1, h => by
    unfold backtrackStart
    rw [if_neg (h i (Nat.lt_succ_self i))]
    exact backtrackStart_eq_zero t stops i (fun k hk => h k (by omega))

theorem find?_reverse_range {p : Nat → Bool} {n j : Nat} (hj : j < n)
    (hpj : p j = true) (haft : ∀ k, j < k → k < n → p k = false) :
    (List.range n).reverse.find? p = some j := by
  induction n with
  | zero => omega
  | succ n ih =>
    rw [List.range_succ, List.reverse_append]
    simp only [List.reverse_singleton, List.singleton_append]
    by_cases hjn : j = n
    · subst hjn
      rw [List.find?_cons_of_pos _ hpj]
    · have hj' : j < n := by omega
      rw [List.find?_cons_of_neg _ (by rw [haft n (by omega) (by omega)]; decide)]
      exact ih hj' fun k hk1 hk2 => haft k hk1 (by omega)

/-! ### Character positions in segments -/

theorem getD_take_drop (t : List Char) (s len k : Nat) (hk : k < len) (d : Char) :
    ((t.drop s).take len).getD k d = t.getD (s + k) d := by
  simp only [List.getD, List.get?_eq_getElem?]
  rw [List.getElem?_take_of_lt hk, List.getElem?_drop]

theorem getD_drop (t : List Char) (s k : Nat) (d : Char) :
    (t.drop s).getD k d = t.getD (s + k) d := by
  simp only [List.getD, List.get?_eq_getElem?]
  rw [List.getElem?_drop]

/-- Inversion of `qualAt`. -/
theorem qualAt_some_inversion {t : List Char} {i e : Nat}
    (h : qualAt t i = some e) :
    matchSuffixAt t i = some e ∧ slashCheck t i e = true := by
  unfold qualAt at h
  cases hm : matchSuffixAt t i with
  | none => rw [hm] at h; cases h
  | some e1 =>
    rw [hm] at h
    dsimp only at h
    split_ifs at h with hs
    cases h
    exact ⟨rfl, hs⟩

/-- Shape of a successful suffix match: the matched characters are
'.' 'c' followed by a tail that is "pp", "c" or empty. -/
theorem matchSuffixAt_shape {t : List Char} {i e : Nat}
    (h : matchSuffixAt t i = some e) :
    ∃ tailP : List Char,
      (t.drop i).take (e - i + 1) = '.' :: 'c' :: tailP ∧
      e = i + 1 + tailP.length ∧
      (tailP = ['p', 'p'] ∨ tailP = ['c'] ∨ tailP = []) := by
  unfold matchSuffixAt at h
  split_ifs at h with h1 h2 h3
  · cases h
    refine ⟨['p', 'p'], ?_, by simp, Or.inl rfl⟩
    have : i + 3 - i + 1 = 4 := by omega
    rw [this, h1]
  · cases h
    refine ⟨['c'], ?_, by simp, Or.inr (Or.inl rfl)⟩
    have : i + 2 - i + 1 = 3 := by omega
    rw [this, h2]
  · cases h
    refine ⟨[], ?_, by simp, Or.inr (Or.inr rfl)⟩
    have : i + 1 - i + 1 = 2 := by omega
    rw [this, h3.1]

theorem scanLastEnd_some_exists {t : List Char} {e : Nat}
    (h : scanLastEnd t = some e) : ∃ i, qualAt t i = some e := by
  rw [scanLastEnd_eq_lastQualifyingEnd] at h
  unfold lastQualifyingEnd at h
  cases hf : (List.range t.length).reverse.find? (fun i => (qualAt t i).isSome) with
  | none => rw [hf] at h; cases h
  | some j =>
    rw [hf] at h
    exact ⟨j, by simpa using h⟩

theorem extract_some_inversion {t : List Char} {r : List Char}
    (h : extract_filename_common t = some r) :
    ∃ e, scanLastEnd t = some e ∧
      e - backtrackStart t [' ', '"'] e + 1 < 1000 ∧
      r = stripDotDotSlash ((t.drop (backtrackStart t [' ', '"'] e)).take
        (e - backtrackStart t [' ', '"'] e + 1)) := by
  unfold extract_filename_common at h
  cases hs : scanLastEnd t with
  | none => rw [hs] at h; cases h
  | some e =>
    rw [hs] at h
    dsimp only at h
    split_ifs at h with hlt
    cases h
    exact ⟨e, rfl, hlt, rfl⟩

/-- A successful match begins with '.'. -/
theorem matchSuffixAt_first_char {t : List Char} {i e : Nat}
    (h : matchSuffixAt t i = some e) : t.getD i 'x' = '.' := by
  obtain ⟨tailP, hP, hlen, _⟩ := matchSuffixAt_shape h
  have hb := matchSuffixAt_some_bounds h
  have := getD_take_drop t i (e - i + 1) 0 (by omega) 'x'
  rw [hP] at this
  rw [Nat.add_zero] at this
  exact this.symm

theorem matchSuffixAt_none_of_ne_dot {t : List Char} {i : Nat}
    (h : t.getD i 'x' ≠ '.') : matchSuffixAt t i = none := by
  cases hm : matchSuffixAt t i with
  | none => rfl
  | some e => exact absurd (matchSuffixAt_first_char hm) h

/-! ### Character classes of the suffix patterns -/

theorem getD_mem_or (l : List Char) (j : Nat) (d : Char) :
    l.getD j d ∈ l ∨ l.getD j d = d := by
  by_cases hj : j < l.length
  · left
    rw [List.getD_eq_getElem l d hj]
    exact List.getElem_mem hj
  · right
    exact List.getD_eq_default l d (le_of_not_lt hj)

theorem getD_append_right (l₁ l₂ : List Char) (k : Nat) (hk : l₁.length ≤ k)
    (d : Char) : (l₁ ++ l₂).getD k d = l₂.getD (k - l₁.length) d := by
  simp only [List.getD, List.get?_eq_getElem?]
  rw [List.getElem?_append_right hk]

theorem pattern_char_cases {tailP : List Char}
    (ht : tailP = ['p', 'p'] ∨ tailP = ['c'] ∨ tailP = []) (j : Nat) :
    ('.' :: 'c' :: tailP).getD j 'x' ∈ (['.', 'c', 'p', 'x'] : List Char) := by
  rcases getD_mem_or ('.' :: 'c' :: tailP) j 'x' with hmem | hx
  · rcases ht with h | h | h <;> subst h <;> simp at hmem ⊢ <;> tauto
  · rw [hx]
    decide

theorem pattern_tail_cases {tailP : List Char}
    (ht : tailP = ['p', 'p'] ∨ tailP = ['c'] ∨ tailP = []) (j : Nat) :
    ('c' :: tailP).getD j 'x' ∈ (['c', 'p', 'x'] : List Char) := by
  rcases getD_mem_or ('c' :: tailP) j 'x' with hmem | hx
  · rcases ht with h | h | h <;> subst h <;> simp at hmem ⊢ <;> tauto
  · rw [hx]
    decide

theorem mem4_not_stops {c : Char} (h : c ∈ (['.', 'c', 'p', 'x'] : List Char)) :
    c ∉ ([' ', '"'] : List Char) := by
  fin_cases h <;> decide

theorem mem3_ne_dot {c : Char} (h : c ∈ (['c', 'p', 'x'] : List Char)) :
    c ≠ '.' := by
  fin_cases h <;> decide

/-- C6 counterexample: "cc ../x.cpp" classifies to "x.cpp" (the "../" strip
removed the only separator), and re-classifying "x.cpp" yields none, so
classify(classify(argv)) differs from classify(argv). -/
theorem classify_idempotent_counterexample :
    extract_filename_common ("cc ../x.cpp".toList) = some ("x.cpp".toList)
    ∧ extract_filename_common ("x.cpp".toList) = none
    ∧ some ("x.cpp".toList) ≠ (none : Option (List Char)) := by
  refine ⟨by decide, by decide, by decide⟩

/-- C6 amended: classification is idempotent on every input whose retained
path still contains a directory separator: if the classifier maps `t` to
`r` and '/' occurs in `r`, then classifying `r` returns `r` again. -/
theorem classify_idempotent_on_separator (t r : List Char)
    (h : extract_filename_common t = some r) (hsl : '/' ∈ r) :
    extract_filename_common r = some r := by
  obtain ⟨e, hscan, hlt1000, hr0⟩ := extract_some_inversion h
  obtain ⟨i, hqi⟩ := scanLastEnd_some_exists hscan
  obtain ⟨hmi, _⟩ := qualAt_some_inversion hqi
  obtain ⟨hie, helen⟩ := matchSuffixAt_some_bounds hmi
  obtain ⟨tailP, hP, hePlen, htail⟩ := matchSuffixAt_shape hmi
  have htlen : tailP.length ≤ 2 := by
    rcases htail with h1 | h1 | h1 <;> subst h1 <;> decide
  set s := backtrackStart t [' ', '"'] e with hs
  have hse : s ≤ e := backtrackStart_le t [' ', '"'] e
  have hsi : s ≤ i := by
    by_contra hgt
    push_neg at hgt
    rcases backtrackStart_boundary t [' ', '"'] e with h0 | ⟨hpos, hbd⟩
    · omega
    · have hj : s - 1 - i < e - i + 1 := by omega
      have hval := getD_take_drop t i (e - i + 1) (s - 1 - i) hj 'x'
      rw [hP] at hval
      have harith : i + (s - 1 - i) = s - 1 := by omega
      rw [harith] at hval
      have hchar := pattern_char_cases htail (s - 1 - i)
      rw [hval] at hchar
      exact mem4_not_stops hchar hbd
  set len := e - s + 1 with hlendef
  set seg := (t.drop s).take len with hseg
  have hseglen : seg.length = len := by
    rw [hseg, List.length_take, List.length_drop]
    omega
  have hsplit : seg = (t.drop s).take (i - s) ++ '.' :: 'c' :: tailP := by
    rw [hseg]
    have hsum : len = (i - s) + (e - i + 1) := by omega
    rw [hsum, List.take_add]
    congr 1
    rw [List.drop_drop]
    have harith : s + (i - s) = i := by omega
    rw [harith, hP]
  set preSeg := (t.drop s).take (i - s) with hpre
  have hprelen : preSeg.length + (2 + tailP.length) = len := by
    have hl := congrArg List.length hsplit
    rw [hseglen] at hl
    simp at hl
    omega
  obtain ⟨m, hm, hrm⟩ := stripDDS_append_keep preSeg.length preSeg tailP (le_refl _)
  have hrdec : r = preSeg.drop m ++ '.' :: 'c' :: tailP := by
    rw [hr0, hsplit, hrm]
  have hrseg : r = seg.drop m := by
    rw [hrdec, hsplit, List.drop_append_of_le_length hm]
  have hseg_getD : ∀ k, k < len → seg.getD k 'x' = t.getD (s + k) 'x' := by
    intro k hk
    rw [hseg]
    exact getD_take_drop t s len k hk 'x'
  have hnostops : ∀ k, k < len → seg.getD k 'x' ∉ ([' ', '"'] : List Char) := by
    intro k hk
    rw [hseg_getD k hk]
    by_cases hke : s + k < e
    · exact backtrackStart_no_stops t [' ', '"'] e (s + k) (by omega) hke
    · have heq : s + k = e := by omega
      rw [heq]
      have hj : e - i < e - i + 1 := by omega
      have hq := getD_take_drop t i (e - i + 1) (e - i) hj 'x'
      rw [hP] at hq
      have harith : i + (e - i) = e := by omega
      rw [harith] at hq
      have hchar := pattern_char_cases htail (e - i)
      rw [hq] at hchar
      exact mem4_not_stops hchar
  have hr_getD : ∀ k, r.getD k 'x' = seg.getD (m + k) 'x' := by
    intro k
    rw [hrseg]
    exact getD_drop seg m k 'x'
  have hrlen : r.length = len - m := by
    rw [hrseg, List.length_drop, hseglen]
  set pre2 := preSeg.drop m with hpre2
  set iR := pre2.length with hiR
  have hiRlen : iR = preSeg.length - m := by
    rw [hiR, hpre2, List.length_drop]
  have hrlen2 : r.length = iR + (2 + tailP.length) := by
    rw [hrdec]
    simp [hiR, hpre2]
    omega
  have hrnostops : ∀ k, k < r.length → r.getD k 'x' ∉ ([' ', '"'] : List Char) := by
    intro k hk
    rw [hr_getD k]
    apply hnostops
    omega
  set n := r.length with hn
  have hdropiR : r.drop iR = '.' :: 'c' :: tailP := by
    rw [hrdec, hiR, hpre2]
    exact List.drop_left _ _
  have hmatchR : matchSuffixAt r iR = some (n - 1) := by
    unfold matchSuffixAt
    rw [hdropiR]
    rcases htail with h1 | h1 | h1 <;> subst h1
    · have hl4 : n = iR + 4 := by
        simp only [List.length_cons, List.length_nil] at hrlen2
        omega
      rw [if_pos (by decide)]
      congr 1
      omega
    · have hl3 : n = iR + 3 := by
        simp only [List.length_cons, List.length_nil] at hrlen2
        omega
      rw [if_neg (by decide), if_pos (by decide)]
      congr 1
      omega
    · have hl2 : n = iR + 2 := by
        simp only [List.length_cons, List.length_nil] at hrlen2
        omega
      rw [if_neg (by decide), if_neg (by decide),
        if_pos ⟨by decide, Or.inl (by omega)⟩]
      congr 1
      omega
  have hnomatch : ∀ k, iR < k → qualAt r k = none := by
    intro k hk
    by_cases hkn : k < n
    · unfold qualAt
      rw [matchSuffixAt_none_of_ne_dot ?_]
      have hval : r.getD k 'x' = ('.' :: 'c' :: tailP).getD (k - iR) 'x' := by
        rw [hrdec]
        have hsub : k - pre2.length = k - iR := by rw [← hiR]
        rw [getD_append_right _ _ k (by omega), hsub]
      obtain ⟨j, hj⟩ : ∃ j, k - iR = j + 1 := ⟨k - iR - 1, by omega⟩
      rw [hval, hj, List.getD_cons_succ]
      exact mem3_ne_dot (pattern_tail_cases htail j)
    · exact qualAt_none_of_ge (by omega)
  have hcs0 : backtrackStart r [' '] iR = 0 := by
    apply backtrackStart_eq_zero
    intro k hk
    have hnk := hrnostops k (by omega)
    intro hmem
    apply hnk
    simp at hmem
    simp [hmem]
  have hn2 : 2 ≤ n := by omega
  have hslashR : slashCheck r iR (n - 1) = true := by
    unfold slashCheck
    rw [hcs0]
    rw [List.any_eq_true]
    obtain ⟨p, hp, hval⟩ := List.mem_iff_getElem.mp hsl
    refine ⟨p, ?_, ?_⟩
    · rw [List.mem_range'_1]
      constructor
      · omega
      · omega
    · have hpd : r.getD p 'x' = '/' := by
        rw [List.getD_eq_getElem r 'x' hp, hval]
      simp only [beq_iff_eq]
      exact hpd
  have hqualR : qualAt r iR = some (n - 1) := by
    unfold qualAt
    rw [hmatchR]
    dsimp only
    rw [if_pos hslashR]
  have hlast : lastQualifyingEnd r = some (n - 1) := by
    unfold lastQualifyingEnd
    rw [find?_reverse_range (show iR < n by omega) (by rw [hqualR]; rfl)
      (fun k hk1 hk2 => by rw [hnomatch k hk1]; rfl)]
    simp [hqualR]
  have hbt : backtrackStart r [' ', '"'] (n - 1) = 0 := by
    apply backtrackStart_eq_zero
    intro k hk
    exact hrnostops k (by omega)
  have hfix : stripDotDotSlash r = r := by
    rw [hr0, stripDDS_idem, ← hr0]
  have hext := extract_of_lastQual_some (show r.length < 1000 by omega) hlast
  rw [hbt] at hext
  have harith : n - 1 - 0 + 1 = n := by omega
  rw [harith, List.drop_zero] at hext
  rw [hn] at hext
  rw [List.take_length] at hext
  rw [hfix] at hext
  exact hext

theorem classify_idempotent_on_separator_witness :
    extract_filename_common ("g++ -c src/a.cpp -o a.o".toList) = some ("src/a.cpp".toList)
    ∧ '/' ∈ ("src/a.cpp".toList)
    ∧ extract_filename_common ("src/a.cpp".toList) = some ("src/a.cpp".toList) :=
  ⟨by decide, by decide,
    classify_idempotent_on_separator ("g++ -c src/a.cpp -o a.o".toList)
      ("src/a.cpp".toList) (by decide) (by decide)⟩

end MemMake
